import Mathlib

/-!
# Verification of the mue/marketplace build pipeline

A shallow embedding of the core of the `mue/marketplace` static catalog
builder (`src/scripts/bundle.ts`, `src/scripts/utils.ts`), together with
proofs about it.

Modelling conventions:
* JavaScript strings are Lean `String`s (lists of Unicode scalar values);
  `String.prototype.toLowerCase` is modelled by the ASCII case mapping
  `jsLowerChar` (the fields involved in the claims are ASCII; Unicode
  special casings play no role in any statement proved here).
* `String.prototype.replace(pat, rep)` with a string pattern replaces the
  first occurrence only; it is modelled faithfully by `replaceFirstL`.
* Machine 32-bit words are `Nat` with explicit reduction `% 2 ^ 32` (`w32`).
* Node's `crypto.createHash('sha256')` is modelled by a full executable
  SHA-256 over the UTF-8 bytes of the input string.
* Dynamic JavaScript values read from the item JSON files are modelled by
  the inductive `JSValue`, with JavaScript truthiness (`truthy`),
  `Array.isArray`, the `.length` property lookup, and the two strict
  comparisons the scripts perform (`=== true`, `=== 0`).
-/

deriving instance DecidableEq for Except

namespace Marketplace

/-! ## JavaScript string primitives -/

/-- ASCII lowercasing of one character, the effective behaviour of
`String.prototype.toLowerCase` on the ASCII data handled by the pipeline. -/
def jsLowerChar (c : Char) : Char :=
  if 65 ≤ c.toNat ∧ c.toNat ≤ 90 then Char.ofNat (c.toNat + 32) else c

/-- Lowercasing (`toLowerCase`) over a whole string. -/
def jsToLower (s : String) : String := ⟨s.data.map jsLowerChar⟩

/-- Does `pat` occur at the head of `s`? -/
def hasLead : List Char → List Char → Bool
  | [], _ => true
  | _ :: _, [] => false
  | p :: ps, c :: cs => p == c && hasLead ps cs

/-- Model of `String.prototype.replace` with a string pattern: replace the first
occurrence of `pat` by `rep`, leaving the rest unchanged. -/
def replaceFirstL (pat rep : List Char) : List Char → List Char
  | [] => if hasLead pat [] then rep else []
  | c :: t =>
    if hasLead pat (c :: t) then rep ++ (c :: t).drop pat.length
    else c :: replaceFirstL pat rep t

/-- Replacement `s.replace(pat, rep)` on strings. -/
def jsReplaceFirst (s pat rep : String) : String :=
  ⟨replaceFirstL pat.data rep.data s.data⟩

/-- Slicing `s.slice(0, n)` (the pipeline only slices ASCII hex strings, where
UTF-16 units and scalar values coincide). -/
def jsSlice (s : String) (n : Nat) : String := ⟨s.data.take n⟩

/-! ## SHA-256 (the model of `crypto.createHash('sha256')`)

An executable SHA-256 over byte lists; 32-bit words are `Nat`s kept below
`2 ^ 32` by explicit reduction. -/

/-- Reduce to a 32-bit word. -/
def w32 (n : Nat) : Nat := n % 4294967296

/-- Right rotation of a 32-bit word. -/
def rotr (n x : Nat) : Nat := w32 ((x >>> n) ||| (x <<< (32 - n)))

/-- 32-bit complement. -/
def compl32 (x : Nat) : Nat := x ^^^ 4294967295

def chF (x y z : Nat) : Nat := (x &&& y) ^^^ (compl32 x &&& z)

def majF (x y z : Nat) : Nat := (x &&& y) ^^^ (x &&& z) ^^^ (y &&& z)

def bsig0 (x : Nat) : Nat := rotr 2 x ^^^ rotr 13 x ^^^ rotr 22 x

def bsig1 (x : Nat) : Nat := rotr 6 x ^^^ rotr 11 x ^^^ rotr 25 x

def ssig0 (x : Nat) : Nat := rotr 7 x ^^^ rotr 18 x ^^^ (x >>> 3)

def ssig1 (x : Nat) : Nat := rotr 17 x ^^^ rotr 19 x ^^^ (x >>> 10)

/-- The SHA-256 round constants (FIPS 180-4, written in decimal). -/
def K256 : List Nat :=
  [1116352408, 1899447441, 3049323471, 3921009573, 961987163, 1508970993,
   2453635748, 2870763221, 3624381080, 310598401, 607225278, 1426881987,
   1925078388, 2162078206, 2614888103, 3248222580, 3835390401, 4022224774,
   264347078, 604807628, 770255983, 1249150122, 1555081692, 1996064986,
   2554220882, 2821834349, 2952996808, 3210313671, 3336571891, 3584528711,
   113926993, 338241895, 666307205, 773529912, 1294757372, 1396182291,
   1695183700, 1986661051, 2177026350, 2456956037, 2730485921, 2820302411,
   3259730800, 3345764771, 3516065817, 3600352804, 4094571909, 275423344,
   430227734, 506948616, 659060556, 883997877, 958139571, 1322822218,
   1537002063, 1747873779, 1955562222, 2024104815, 2227730452, 2361852424,
   2428436474, 2756734187, 3204031479, 3329325298]

/-- The SHA-256 initial hash state (FIPS 180-4, written in decimal). -/
def H0 : List Nat :=
  [1779033703, 3144134277, 1013904242, 2773480762,
   1359893119, 2600822924, 528734635, 1541459225]

/-- The big-endian 8-byte encoding of the message bit length. -/
def lenBytes (L : Nat) : List Nat :=
  [(L >>> 56) % 256, (L >>> 48) % 256, (L >>> 40) % 256, (L >>> 32) % 256,
   (L >>> 24) % 256, (L >>> 16) % 256, (L >>> 8) % 256, L % 256]

/-- SHA-256 padding: append `0x80`, zero bytes up to 56 mod 64, and the
bit length. -/
def padMessage (msg : List Nat) : List Nat :=
  msg ++ [128] ++ List.replicate ((119 - msg.length % 64) % 64) 0 ++
    lenBytes (8 * msg.length)

/-- Split a byte list into 64-byte blocks. -/
def chunks64 : List Nat → List (List Nat)
  | [] => []
  | c :: t => ((c :: t).take 64) :: chunks64 ((c :: t).drop 64)
termination_by l => l.length
decreasing_by simp; omega

/-- Big-endian 32-bit words from bytes. -/
def bytesToWords : List Nat → List Nat
  | b0 :: b1 :: b2 :: b3 :: t =>
    ((((b0 <<< 8) ||| b1) <<< 8 ||| b2) <<< 8 ||| b3) :: bytesToWords t
  | _ => []

/-- Message-schedule extension; `acc` holds the words most recent first. -/
def extendLoop : Nat → List Nat → List Nat
  | 0, acc => acc
  | n + 1, acc =>
    extendLoop n
      (w32 (ssig1 (acc.getD 1 0) + acc.getD 6 0 + ssig0 (acc.getD 14 0) +
        acc.getD 15 0) :: acc)

/-- The 64-entry message schedule of one block. -/
def scheduleW (w16 : List Nat) : List Nat := (extendLoop 48 w16.reverse).reverse

/-- One SHA-256 compression round; the state is the list `[a,b,c,d,e,f,g,h]`. -/
def compressStep (st : List Nat) (kw : Nat × Nat) : List Nat :=
  let a := st.getD 0 0
  let b := st.getD 1 0
  let c := st.getD 2 0
  let d := st.getD 3 0
  let e := st.getD 4 0
  let f := st.getD 5 0
  let g := st.getD 6 0
  let h := st.getD 7 0
  let t1 := w32 (h + bsig1 e + chF e f g + kw.1 + kw.2)
  let t2 := w32 (bsig0 a + majF a b c)
  [w32 (t1 + t2), a, b, c, w32 (d + t1), e, f, g]

/-- Process one 64-byte block. -/
def processBlock (H : List Nat) (block : List Nat) : List Nat :=
  let st := ((K256.zip (scheduleW (bytesToWords block)))).foldl compressStep H
  List.zipWith (fun x y => w32 (x + y)) H st

/-- Big-endian bytes of one 32-bit word. -/
def wordBytes (w : Nat) : List Nat :=
  [(w >>> 24) % 256, (w >>> 16) % 256, (w >>> 8) % 256, w % 256]

/-- The SHA-256 digest (32 bytes) of a byte list. -/
def sha256Digest (msg : List Nat) : List Nat :=
  (((chunks64 (padMessage msg)).foldl processBlock H0).map wordBytes).flatten

/-- UTF-8 encoding of one scalar value. -/
def utf8EncodeChar (c : Char) : List Nat :=
  let n := c.toNat
  if n < 128 then [n]
  else if n < 2048 then [192 ||| (n >>> 6), 128 ||| (n &&& 63)]
  else if n < 65536 then
    [224 ||| (n >>> 12), 128 ||| ((n >>> 6) &&& 63), 128 ||| (n &&& 63)]
  else
    [240 ||| (n >>> 18), 128 ||| ((n >>> 12) &&& 63),
     128 ||| ((n >>> 6) &&& 63), 128 ||| (n &&& 63)]

/-- The UTF-8 bytes of a string (Node hashes strings as UTF-8). -/
def strBytes (s : String) : List Nat := (s.data.map utf8EncodeChar).flatten

/-- One lowercase hex digit: `0`-`9` for values below ten, `a`-`f` above. -/
def hexDigit (n : Nat) : Char :=
  if n < 10 then Char.ofNat (48 + n) else Char.ofNat (87 + n)

/-- Two lowercase hex characters of one byte. -/
def byteHexChars (b : Nat) : List Char := [hexDigit (b / 16), hexDigit (b % 16)]

/-- Model of `crypto.createHash('sha256').update(s).digest('hex')`. -/
def sha256hex (s : String) : String :=
  ⟨((sha256Digest (strBytes s)).map byteHexChars).flatten⟩

/-! ## `scripts/utils.ts` / `scripts/bundle.ts` pure utilities -/

/-- Function `generateStableHash` (`utils.ts` lines 40–47 and the identical inline copy
in `bundle.ts` lines 88–91): hex SHA-256 of `canonicalPath + ":" + author`,
truncated with `.slice(0, 12)`. -/
def generateStableHash (canonicalPath author : String) : String :=
  jsSlice (sha256hex (canonicalPath ++ ":" ++ author)) 12

/-- Is `c` a lowercase ASCII letter or digit (the `[a-z0-9]` class)? -/
def isAlnumL (c : Char) : Bool :=
  (97 ≤ c.toNat && c.toNat ≤ 122) || (48 ≤ c.toNat && c.toNat ≤ 57)

/-- Model of `.replace(/[^a-z0-9]+/g, '-')`: each maximal run of characters outside
`[a-z0-9]` becomes a single hyphen. -/
def collapseRuns : List Char → List Char
  | [] => []
  | [c] => if isAlnumL c then [c] else ['-']
  | c :: d :: t =>
    if isAlnumL c then c :: collapseRuns (d :: t)
    else if isAlnumL d then '-' :: collapseRuns (d :: t)
    else collapseRuns (d :: t)

/-- Model of `.replace(/^-+|-+$/g, '')`: strip leading and trailing hyphen runs. -/
def stripHyphens (l : List Char) : List Char :=
  ((l.dropWhile (· == '-')).reverse.dropWhile (· == '-')).reverse

/-- Function `generateSlug` (`utils.ts` lines 68–73, identical inline copy in
`bundle.ts` lines 96–101). -/
def generateSlug (name : String) : String :=
  ⟨stripHyphens (collapseRuns (name.data.map jsLowerChar))⟩

/-- The typed item fields read by `generateSearchText` (`ItemData` in
`scripts/types.ts`). -/
structure SearchItem where
  name : String
  description : String
  language : Option String
deriving DecidableEq

/-- Function `generateSearchText` (`utils.ts` lines 97–110, identical inline copy in
`bundle.ts` lines 115–124): join name, description, author, the canonical
path with `.replace('/', ' ')` applied, and `language || ''` with single
spaces, then lowercase. -/
def generateSearchText (item : SearchItem) (canonicalPath author : String) :
    String :=
  jsToLower (String.intercalate " "
    [item.name, item.description, author,
     jsReplaceFirst canonicalPath "/" " ", item.language.getD ""])

/-! ## Dynamic JavaScript values and the two validators -/

/-- A JSON/JavaScript value as the scripts see one after `readJSON`.
`undefined` stands for a missing property. (`NaN` never arises from JSON and is
not modelled; object identity is irrelevant to the scripts' comparisons,
which are only `=== true` and `=== 0`.) -/
inductive JSValue where
  | undefined
  | null
  | bool (b : Bool)
  | num (n : Int)
  | str (s : String)
  | arr (xs : List JSValue)
  | obj (fields : List (String × JSValue))

/-- An item file's parsed contents: its properties in order. -/
abbrev JSObj := List (String × JSValue)

/-- Property access `file[field]`; a missing property reads as `undefined`. -/
def getField (file : JSObj) (field : String) : JSValue :=
  match file.find? (fun kv => kv.1 == field) with
  | some kv => kv.2
  | none => JSValue.undefined

/-- JavaScript truthiness: `undefined`, `null`, `false`, `0` and `""` are
falsy; every other value (arrays and objects included) is truthy. -/
def truthy : JSValue → Bool
  | .undefined => false
  | .null => false
  | .bool b => b
  | .num n => n != 0
  | .str s => s != ""
  | .arr _ => true
  | .obj _ => true

/-- Test `Array.isArray`. -/
def jsIsArray : JSValue → Bool
  | .arr _ => true
  | _ => false

/-- The `.length` property of a value: array length, string length, an
object's own `length` property, `undefined` otherwise. -/
def jsLengthProp : JSValue → JSValue
  | .arr xs => .num xs.length
  | .str s => .num s.length
  | .obj fields => getField fields "length"
  | _ => .undefined

/-- Strict comparison `v === true` as performed by the draft check. -/
def strictEqTrue : JSValue → Bool
  | .bool b => b
  | _ => false

/-- Strict comparison `v === 0` as performed by the inline length checks. -/
def strictEqZero : JSValue → Bool
  | .num n => n == 0
  | _ => false

/-- A value interpreted as a string. The typed interface (`ItemData` in
`scripts/types.ts`) declares `author` as `string`, so the scripts only ever
read strings here. -/
def asString : JSValue → String
  | .str s => s
  | _ => ""

/-- The three item categories (`FolderType` in `scripts/types.ts`). -/
inductive Folder where
  | photo_packs
  | quote_packs
  | preset_settings
deriving DecidableEq

def Folder.str : Folder → String
  | .photo_packs => "photo_packs"
  | .quote_packs => "quote_packs"
  | .preset_settings => "preset_settings"

/-- The required-field table. It appears twice in the sources with identical
contents: `REQUIRED_FIELDS` in `bundle.ts` lines 127–131 and
`VALIDATION_CONFIG.REQUIRED_FIELDS` in `scripts/config.ts` (that file is
absent from the provided sources, but its table is pinned to exactly these
values by `tests/utils.test.ts` and mirrored by the `bundle.ts` copy). -/
def requiredFields : Folder → List String
  | .photo_packs => ["name", "description", "author", "icon_url", "photos"]
  | .quote_packs => ["name", "description", "author", "quotes"]
  | .preset_settings => ["name", "description", "author", "settings"]

/-- The required-field loop shared verbatim by both validators: return the
first field whose value is falsy. -/
def requiredLoop (file : JSObj) : List String → Option String
  | [] => none
  | f :: fs => if truthy (getField file f) then requiredLoop file fs else some f

/-- Structure `ValidationError` from `scripts/utils.ts`. -/
structure ValidationError where
  field : Option String
  message : String
  canonicalPath : String
deriving DecidableEq

/-- Function `validateItem` from `scripts/utils.ts` lines 136–187: required-field loop,
then `Array.isArray`-based non-emptiness of the category payload. -/
def utilsValidateItem (file : JSObj) (folder : Folder) (canonicalPath : String) :
    Except ValidationError Unit :=
  match requiredLoop file (requiredFields folder) with
  | some f =>
    .error ⟨some f, "Missing required field \"" ++ f ++ "\"", canonicalPath⟩
  | none =>
    match folder with
    | .photo_packs =>
      match getField file "photos" with
      | .arr xs =>
        if xs.length == 0 then
          .error ⟨some "photos", "Photo pack must contain at least one photo",
            canonicalPath⟩
        else .ok ()
      | _ =>
        .error ⟨some "photos", "Photo pack must contain at least one photo",
          canonicalPath⟩
    | .quote_packs =>
      match getField file "quotes" with
      | .arr xs =>
        if xs.length == 0 then
          .error ⟨some "quotes", "Quote pack must contain at least one quote",
            canonicalPath⟩
        else .ok ()
      | _ =>
        .error ⟨some "quotes", "Quote pack must contain at least one quote",
          canonicalPath⟩
    | .preset_settings => .ok ()

/-- The fatal diagnostics of the inline validator in `bundle.ts`
(`console.error` followed by `process.exit(1)`). -/
inductive BundleVError where
  | missing (canonicalPath field : String)
  | noPhotos (canonicalPath : String)
  | noQuotes (canonicalPath : String)
deriving DecidableEq

/-- The inline `validateItem` from `bundle.ts` lines 139–157: required-field
loop, then the truthiness-based checks
`!file.photos || file.photos.length === 0` (and likewise for quotes). -/
def bundleValidateItem (file : JSObj) (folder : Folder)
    (canonicalPath : String) : Except BundleVError Unit :=
  match requiredLoop file (requiredFields folder) with
  | some f => .error (.missing canonicalPath f)
  | none =>
    match folder with
    | .photo_packs =>
      if !truthy (getField file "photos") ||
          strictEqZero (jsLengthProp (getField file "photos")) then
        .error (.noPhotos canonicalPath)
      else .ok ()
    | .quote_packs =>
      if !truthy (getField file "quotes") ||
          strictEqZero (jsLengthProp (getField file "quotes")) then
        .error (.noQuotes canonicalPath)
      else .ok ()
    | .preset_settings => .ok ()

/-! ## The ID registry (`bundle.ts` lines 77–80, 284–299, 419–434) -/

/-- The in-memory registry: `hashes` is the `Map` from stable hash to the
canonical path that produced it (newest first), `paths` the set of canonical
paths seen so far (newest first). -/
structure IdRegistry where
  hashes : List (String × String)
  paths : List String
deriving DecidableEq

/-- Lookup `Map.get` on the hash map. -/
def lookupHash (hs : List (String × String)) (h : String) : Option String :=
  match hs.find? (fun kv => kv.1 == h) with
  | some kv => some kv.2
  | none => none

/-- The fatal build diagnostics of the aggregation script. -/
inductive BuildError where
  | duplicatePath (canonicalPath : String)
  | hashCollision (canonicalPath existing : String)
  | validation (e : BundleVError)
  | missingCollectionHistory
  | danglingReference (ref : String)
deriving DecidableEq

/-- The uniqueness checks and registration of `bundle.ts` lines 284–299 (and
their identical copy at lines 419–434): a seen canonical path is a fatal
`DUPLICATE PATH`; a seen stable hash is a fatal `HASH COLLISION` reporting
the path already holding the hash; otherwise both are inserted. -/
def registerIds (r : IdRegistry) (canonicalPath stableHash : String) :
    Except BuildError IdRegistry :=
  if r.paths.contains canonicalPath then
    .error (.duplicatePath canonicalPath)
  else
    match lookupHash r.hashes stableHash with
    | some existing => .error (.hashCollision canonicalPath existing)
    | none =>
      .ok ⟨(stableHash, canonicalPath) :: r.hashes, canonicalPath :: r.paths⟩

/-- A whole build's worth of registrations in order. -/
def runRegistrations : IdRegistry → List (String × String) →
    Except BuildError IdRegistry
  | r, [] => .ok r
  | r, (p, h) :: rest =>
    match registerIds r p h with
    | .ok r' => runRegistrations r' rest
    | .error e => .error e

/-! ## Timestamp resolution and the build cache -/

/-- A resolved pair of git timestamps. -/
structure Timestamps where
  created_at : String
  updated_at : String
deriving DecidableEq

/-- A `cache.gitHistory` entry (`bundle.ts` lines 46–49). -/
structure GitCacheEntry where
  created_at : String
  updated_at : String
  contentHash : String
deriving DecidableEq

/-- A `cache.colorCache` entry (`bundle.ts` lines 46–49): no content
fingerprint and no write timestamp are stored. -/
structure ColorCacheEntry where
  colour : String
  isDark : Bool
  isLight : Bool
deriving DecidableEq

/-- Keyed record lookup (`cache.gitHistory[path]`, `cache.colorCache[url]`). -/
def assocLookup {α : Type} (m : List (String × α)) (k : String) : Option α :=
  match m.find? (fun kv => kv.1 == k) with
  | some kv => some kv.2
  | none => none

/-- The git-history cache lookup of `bundle.ts` lines 178–206: a cached
entry is used exactly when its stored `contentHash` equals the hash of the
file's current contents. No age is stored or consulted. -/
def gitHistoryCacheLookup (cache : List (String × GitCacheEntry))
    (path fileHash : String) : Option Timestamps :=
  match assocLookup cache path with
  | some e => if e.contentHash == fileHash then some ⟨e.created_at, e.updated_at⟩
              else none
  | none => none

/-- The colour cache lookup of `bundle.ts` lines 316–351
(`if (cache.colorCache[iconUrl]) { … use cached … }`): a stored entry is used
on mere presence of the key. -/
def colorCacheGet (cache : List (String × ColorCacheEntry)) (url : String) :
    Option ColorCacheEntry :=
  match assocLookup cache url with
  | some e => some e
  | none => none

/-- Item timestamp resolution, `bundle.ts` lines 301–311: the batch git
history map if it has the path, else `now` for both fields. Total — a
missing history is never an error for an item. -/
def resolveItemTimestamps (ghm : List (String × Timestamps))
    (path now : String) : Timestamps :=
  match assocLookup ghm path with
  | some t => t
  | none => ⟨now, now⟩

/-- One commit of a git log; `new Date(·).toISOString()` normalisation is
modelled as the identity on the stored date string (no claim under
verification depends on date formatting). -/
structure GitCommit where
  date : String
deriving DecidableEq

/-- Collection timestamp resolution, `bundle.ts` lines 437–442. The log list
is most-recent-first (`history.latest` is the head,
`history.all[history.all.length - 1]` the last element). The code
dereferences `collectionHistory.latest!` without a null check, so an empty
history throws — modelled by `none`. -/
def resolveCollectionTimestamps (log : List GitCommit) : Option Timestamps :=
  match log.head? with
  | none => none
  | some latest => some ⟨(log.getLastD latest).date, latest.date⟩

/-! ## Per-item and per-collection processing (`bundle.ts` lines 250–473)

The parallel fan-out is cooperative (p-limit over async closures), so
registry updates interleave atomically between suspension points; the model
processes the enumerated files sequentially in enumeration order. Icon
colour enrichment is a cache/network side effect that touches no field any
claim depends on, and is omitted from the processed-item record. -/

/-- The summary record a processed (non-draft) item contributes. -/
structure ProcessedItem where
  name : String
  author : String
  canonicalPath : String
  id : String
  created_at : String
  updated_at : String
deriving DecidableEq

/-- Processing of one item file (`bundle.ts` lines 260–311, 354–387):
draft filter, inline validation, stable-hash assignment, registry checks,
timestamp resolution, summary construction. -/
def processItem (ghm : List (String × Timestamps)) (now : String)
    (reg : IdRegistry) (folder : Folder) (fileName : String) (file : JSObj) :
    Except BuildError (IdRegistry × Option ProcessedItem) :=
  if strictEqTrue (getField file "draft") then .ok (reg, none)
  else
    let name := jsReplaceFirst fileName ".json" ""
    let canonicalPath := folder.str ++ "/" ++ name
    match bundleValidateItem file folder canonicalPath with
    | .error e => .error (.validation e)
    | .ok _ =>
      let author := asString (getField file "author")
      let stableHash := generateStableHash canonicalPath author
      match registerIds reg canonicalPath stableHash with
      | .error e => .error e
      | .ok reg' =>
        let ts := resolveItemTimestamps ghm
          ("./data/" ++ folder.str ++ "/" ++ fileName) now
        .ok (reg', some ⟨name, author, canonicalPath, stableHash,
          ts.created_at, ts.updated_at⟩)

/-- Processing of a category's enumerated files in order, accumulating the
non-draft summaries (the `processedItems` array with the `null` entries
filtered out). -/
def processItems (ghm : List (String × Timestamps)) (now : String)
    (reg : IdRegistry) (folder : Folder) :
    List (String × JSObj) → Except BuildError (IdRegistry × List ProcessedItem)
  | [] => .ok (reg, [])
  | (fn, file) :: rest =>
    match processItem ghm now reg folder fn file with
    | .error e => .error e
    | .ok (reg', none) => processItems ghm now reg' folder rest
    | .ok (reg', some s) =>
      match processItems ghm now reg' folder rest with
      | .error e => .error e
      | .ok (regF, l) => .ok (regF, s :: l)

/-- The item references of a collection file (`file.items`, a list of
`"category/name"` strings; absent for news collections). -/
def collectionItemRefs (file : JSObj) : List String :=
  match getField file "items" with
  | .arr xs => xs.map asString
  | _ => []

/-- A collection's summary record. -/
structure CollectionRec where
  name : String
  id : String
  canonicalPath : String
  created_at : String
  updated_at : String
deriving DecidableEq

/-- Processing of one collection file (`bundle.ts` lines 406–473): draft
filter, stable-hash assignment against the literal author `"marketplace"`,
registry checks, timestamp resolution via the non-null-asserted git log,
dangling-reference check against the built item canonical paths. -/
def processCollection (reg : IdRegistry) (log : List GitCommit)
    (itemKeys : List String) (fileName : String) (file : JSObj) :
    Except BuildError (IdRegistry × Option CollectionRec) :=
  if strictEqTrue (getField file "draft") then .ok (reg, none)
  else
    let name := jsReplaceFirst fileName ".json" ""
    let canonicalPath := "collections/" ++ name
    let stableHash := generateStableHash canonicalPath "marketplace"
    match registerIds reg canonicalPath stableHash with
    | .error e => .error e
    | .ok reg' =>
      match resolveCollectionTimestamps log with
      | none => .error .missingCollectionHistory
      | some ts =>
        match (collectionItemRefs file).find?
            (fun ref => !itemKeys.contains ref) with
        | some ref => .error (.danglingReference ref)
        | none =>
          .ok (reg', some ⟨name, stableHash, canonicalPath,
            ts.created_at, ts.updated_at⟩)

/-! ## Specification-side definitions

These definitions transcribe the claims' words (not the code); the theorems
below compare the code functions against them. -/

/-- Slug normal form: no two adjacent hyphens. -/
def NoAdjHyphen (l : List Char) : Prop :=
  List.Chain' (fun a b => ¬(a = '-' ∧ b = '-')) l

/-- Membership in the claimed output alphabet `[a-f0-9]` of the stable
hash. -/
def hexOkChar (c : Char) : Bool :=
  (97 ≤ c.toNat && c.toNat ≤ 102) || (48 ≤ c.toNat && c.toNat ≤ 57)

/-- Transcribed from the C4 claim: the first required field of the category
that holds a falsy value, or — when all required fields are truthy — the
payload field whose value is not a non-empty array (photo and quote packs
only). `none` means the claim predicts validation success. -/
def specFirstFailure (file : JSObj) (folder : Folder) : Option String :=
  match (requiredFields folder).find? (fun f => !truthy (getField file f)) with
  | some f => some f
  | none =>
    match folder with
    | .photo_packs =>
      match getField file "photos" with
      | .arr xs => if xs.length = 0 then some "photos" else none
      | _ => some "photos"
    | .quote_packs =>
      match getField file "quotes" with
      | .arr xs => if xs.length = 0 then some "quotes" else none
      | _ => some "quotes"
    | .preset_settings => none

/-- The field named by a `utils.ts` validation outcome. -/
def vField : Except ValidationError Unit → Option String
  | .ok _ => none
  | .error e => e.field

/-- The canonical path carried by a `utils.ts` validation outcome. -/
def vPath : Except ValidationError Unit → Option String
  | .ok _ => none
  | .error e => some e.canonicalPath

/-- The field identified by an inline (`bundle.ts`) validation outcome. -/
def bvField : Except BundleVError Unit → Option String
  | .ok _ => none
  | .error (.missing _ f) => some f
  | .error (.noPhotos _) => some "photos"
  | .error (.noQuotes _) => some "quotes"

/-- The category payload value (photos/quotes) of an item is an array or a
falsy value — the condition under which the two validators coincide
(C9, amended). -/
def payloadCompat (file : JSObj) : Folder → Bool
  | .photo_packs =>
    jsIsArray (getField file "photos") || !truthy (getField file "photos")
  | .quote_packs =>
    jsIsArray (getField file "quotes") || !truthy (getField file "quotes")
  | .preset_settings => true

/-! ## Supporting lemmas: characters and lowercasing -/

theorem toNat_ofNat_valid (n : Nat) (h : n.isValidChar) :
    (Char.ofNat n).toNat = n := by
  unfold Char.ofNat
  rw [dif_pos h]
  rfl

theorem jsLowerChar_toNat (c : Char) (h : 65 ≤ c.toNat ∧ c.toNat ≤ 90) :
    (jsLowerChar c).toNat = c.toNat + 32 := by
  unfold jsLowerChar
  rw [if_pos h]
  exact toNat_ofNat_valid _ (Or.inl (by omega))

theorem jsLowerChar_of_not_upper (c : Char)
    (h : ¬(65 ≤ c.toNat ∧ c.toNat ≤ 90)) : jsLowerChar c = c := by
  unfold jsLowerChar
  rw [if_neg h]

theorem jsLowerChar_idem (c : Char) :
    jsLowerChar (jsLowerChar c) = jsLowerChar c := by
  by_cases h : 65 ≤ c.toNat ∧ c.toNat ≤ 90
  · have h1 := jsLowerChar_toNat c h
    exact jsLowerChar_of_not_upper _ (by omega)
  · rw [jsLowerChar_of_not_upper c h, jsLowerChar_of_not_upper c h]

theorem jsToLower_idem (s : String) : jsToLower (jsToLower s) = jsToLower s := by
  unfold jsToLower
  apply congrArg String.mk
  show (s.data.map jsLowerChar).map jsLowerChar = s.data.map jsLowerChar
  rw [List.map_map]
  exact List.map_congr_left fun c _ => jsLowerChar_idem c

theorem isAlnumL_ne_hyphen (c : Char) (h : isAlnumL c = true) : c ≠ '-' := by
  intro hc
  subst hc
  simp [isAlnumL] at h

theorem jsLowerChar_fixed_of_slug_char (c : Char)
    (h : isAlnumL c = true ∨ c = '-') : jsLowerChar c = c := by
  apply jsLowerChar_of_not_upper
  rcases h with h | h
  · simp only [isAlnumL, Bool.or_eq_true, Bool.and_eq_true, decide_eq_true_eq]
      at h
    omega
  · subst h
    decide

/-! ## Supporting lemmas: the slug pipeline -/

theorem collapseRuns_mem (l : List Char) :
    ∀ c ∈ collapseRuns l, isAlnumL c = true ∨ c = '-' := by
  induction l using collapseRuns.induct with
  | case1 => intro c hc; simp [collapseRuns] at hc
  | case2 c h =>
    intro x hx
    simp only [collapseRuns, if_pos h, List.mem_singleton] at hx
    subst hx; exact Or.inl h
  | case3 c h =>
    intro x hx
    simp only [collapseRuns, if_neg h, List.mem_singleton] at hx
    subst hx; exact Or.inr rfl
  | case4 c d t h ih =>
    intro x hx
    simp only [collapseRuns, if_pos h, List.mem_cons] at hx
    rcases hx with rfl | hx
    · exact Or.inl h
    · exact ih x hx
  | case5 c d t h hd ih =>
    intro x hx
    simp only [collapseRuns, if_neg h, if_pos hd, List.mem_cons] at hx
    rcases hx with rfl | hx
    · exact Or.inr rfl
    · exact ih x hx
  | case6 c d t h hd ih =>
    intro x hx
    simp only [collapseRuns, if_neg h, if_neg hd] at hx
    exact ih x hx

theorem collapseRuns_head_alnum (d : Char) (t : List Char)
    (h : isAlnumL d = true) : (collapseRuns (d :: t)).head? = some d := by
  cases t with
  | nil => simp [collapseRuns, if_pos h]
  | cons e t' =>
    by_cases he : isAlnumL d
    · simp [collapseRuns, if_pos h]
    · exact absurd h he

theorem collapseRuns_noAdj (l : List Char) : NoAdjHyphen (collapseRuns l) := by
  induction l using collapseRuns.induct with
  | case1 => simp [collapseRuns, NoAdjHyphen]
  | case2 c h => simp [collapseRuns, if_pos h, NoAdjHyphen]
  | case3 c h => simp [collapseRuns, if_neg h, NoAdjHyphen]
  | case4 c d t h ih =>
    unfold NoAdjHyphen at *
    simp only [collapseRuns, if_pos h]
    rw [List.chain'_cons']
    refine ⟨fun b _ => ?_, ih⟩
    intro ⟨hc, _⟩
    exact isAlnumL_ne_hyphen c h hc
  | case5 c d t h hd ih =>
    unfold NoAdjHyphen at *
    simp only [collapseRuns, if_neg h, if_pos hd]
    rw [List.chain'_cons']
    refine ⟨fun b hb => ?_, ih⟩
    rw [collapseRuns_head_alnum d t hd] at hb
    simp only [Option.mem_def, Option.some.injEq] at hb
    subst hb
    intro ⟨_, hb⟩
    exact isAlnumL_ne_hyphen d hd hb
  | case6 c d t h hd ih =>
    unfold NoAdjHyphen at *
    simp only [collapseRuns, if_neg h, if_neg hd]
    exact ih

theorem collapseRuns_fixed (l : List Char)
    (hchars : ∀ c ∈ l, isAlnumL c = true ∨ c = '-') (hadj : NoAdjHyphen l) :
    collapseRuns l = l := by
  induction l using collapseRuns.induct with
  | case1 => rfl
  | case2 c h => simp [collapseRuns, if_pos h]
  | case3 c h =>
    have := hchars c (List.mem_singleton_self c)
    rcases this with hc | hc
    · exact absurd hc h
    · simp [collapseRuns, if_neg h, hc]
  | case4 c d t h ih =>
    simp only [collapseRuns, if_pos h]
    rw [ih (fun x hx => hchars x (List.mem_cons_of_mem c hx)) hadj.tail]
  | case5 c d t h hd ih =>
    have hc : c = '-' := by
      rcases hchars c (List.mem_cons_self c _) with hx | hx
      · exact absurd hx h
      · exact hx
    simp only [collapseRuns, if_neg h, if_pos hd]
    rw [ih (fun x hx => hchars x (List.mem_cons_of_mem c hx)) hadj.tail, hc]
  | case6 c d t h hd ih =>
    have hc : c = '-' := by
      rcases hchars c (List.mem_cons_self c _) with hx | hx
      · exact absurd hx h
      · exact hx
    have hdc : d = '-' := by
      rcases hchars d (List.mem_cons_of_mem c (List.mem_cons_self d t))
        with hx | hx
      · exact absurd hx hd
      · exact hx
    exfalso
    have := List.chain'_cons.mp hadj
    exact this.1 ⟨hc, hdc⟩

theorem head?_dropWhile_not (p : Char → Bool) (l : List Char) (a : Char)
    (h : (l.dropWhile p).head? = some a) : p a = false := by
  induction l with
  | nil => simp [List.dropWhile] at h
  | cons c t ih =>
    rw [List.dropWhile_cons] at h
    by_cases hp : p c
    · rw [if_pos hp] at h
      exact ih h
    · rw [if_neg hp] at h
      simp only [List.head?_cons, Option.some.injEq] at h
      subst h
      exact Bool.not_eq_true _ |>.mp hp

theorem noAdj_dropWhile (p : Char → Bool) (l : List Char)
    (h : NoAdjHyphen l) : NoAdjHyphen (l.dropWhile p) := by
  induction l with
  | nil => exact h
  | cons c t ih =>
    rw [List.dropWhile_cons]
    by_cases hp : p c
    · rw [if_pos hp]
      exact ih h.tail
    · rw [if_neg hp]
      exact h

theorem noAdj_reverse (l : List Char) (h : NoAdjHyphen l) :
    NoAdjHyphen l.reverse := by
  unfold NoAdjHyphen at *
  rw [List.chain'_reverse]
  exact h.imp fun a b hab ⟨h1, h2⟩ => hab ⟨h2, h1⟩

theorem getLast?_dropWhile_of_ne_nil (p : Char → Bool) (l : List Char)
    (h : l.dropWhile p ≠ []) : (l.dropWhile p).getLast? = l.getLast? := by
  induction l with
  | nil => simp [List.dropWhile] at h
  | cons c t ih =>
    rw [List.dropWhile_cons]
    rw [List.dropWhile_cons] at h
    by_cases hp : p c
    · rw [if_pos hp] at h ⊢
      rw [ih h]
      have ht : t ≠ [] := by
        intro he
        subst he
        simp [List.dropWhile] at h
      cases t with
      | nil => exact absurd rfl ht
      | cons x t' => rw [List.getLast?_cons_cons]
    · rw [if_neg hp] at h ⊢

theorem stripHyphens_mem (l : List Char) :
    ∀ c ∈ stripHyphens l, c ∈ l := by
  intro c hc
  unfold stripHyphens at hc
  rw [List.mem_reverse] at hc
  have hc2 := (List.dropWhile_sublist _).subset hc
  rw [List.mem_reverse] at hc2
  exact (List.dropWhile_sublist _).subset hc2

theorem stripHyphens_noAdj (l : List Char) (h : NoAdjHyphen l) :
    NoAdjHyphen (stripHyphens l) := by
  unfold stripHyphens
  exact noAdj_reverse _ (noAdj_dropWhile _ _ (noAdj_reverse _
    (noAdj_dropWhile _ _ h)))

theorem stripHyphens_head (l : List Char) (a : Char)
    (h : (stripHyphens l).head? = some a) : a ≠ '-' := by
  unfold stripHyphens at h
  rw [List.head?_reverse] at h
  set w := (l.dropWhile (· == '-')).reverse.dropWhile (· == '-') with hw
  have hne : w ≠ [] := by
    intro he
    rw [he] at h
    simp at h
  rw [getLast?_dropWhile_of_ne_nil _ _ hne, List.getLast?_reverse] at h
  have := head?_dropWhile_not (· == '-') l a h
  simpa using this

theorem stripHyphens_last (l : List Char) (a : Char)
    (h : (stripHyphens l).getLast? = some a) : a ≠ '-' := by
  unfold stripHyphens at h
  rw [List.getLast?_reverse] at h
  have := head?_dropWhile_not (· == '-') _ a h
  simpa using this

theorem dropWhile_eq_self_of_head (p : Char → Bool) (l : List Char)
    (h : ∀ a, l.head? = some a → p a = false) : l.dropWhile p = l := by
  cases l with
  | nil => rfl
  | cons c t =>
    rw [List.dropWhile_cons, if_neg]
    rw [h c rfl]
    simp

theorem stripHyphens_fixed (l : List Char)
    (hh : ∀ a, l.head? = some a → a ≠ '-')
    (hl : ∀ a, l.getLast? = some a → a ≠ '-') : stripHyphens l = l := by
  unfold stripHyphens
  rw [dropWhile_eq_self_of_head _ l (fun a ha => by simpa using hh a ha)]
  rw [dropWhile_eq_self_of_head _ l.reverse
    (fun a ha => by
      rw [List.head?_reverse] at ha
      simpa using hl a ha)]
  exact List.reverse_reverse l

/-- The characters of a slug are lowercase alphanumerics or hyphens. -/
theorem generateSlug_chars (s : String) :
    ∀ c ∈ (generateSlug s).data, isAlnumL c = true ∨ c = '-' := by
  intro c hc
  exact collapseRuns_mem _ c (stripHyphens_mem _ c hc)

theorem generateSlug_fixed_point (s : String) :
    generateSlug (generateSlug s) = generateSlug s := by
  unfold generateSlug
  apply congrArg String.mk
  set out := stripHyphens (collapseRuns (s.data.map jsLowerChar)) with hout
  have hchars : ∀ c ∈ out, isAlnumL c = true ∨ c = '-' := by
    intro c hc
    exact collapseRuns_mem _ c (stripHyphens_mem _ c hc)
  have hmap : out.map jsLowerChar = out := by
    conv_rhs => rw [← List.map_id out]
    exact List.map_congr_left fun c hc =>
      jsLowerChar_fixed_of_slug_char c (hchars c hc)
  show stripHyphens (collapseRuns ((String.mk out).data.map jsLowerChar)) = out
  rw [show (String.mk out).data = out from rfl, hmap]
  rw [collapseRuns_fixed out hchars
    (stripHyphens_noAdj _ (collapseRuns_noAdj _))]
  exact stripHyphens_fixed out (stripHyphens_head _) (stripHyphens_last _)

/-! ## Supporting lemmas: first-occurrence replacement -/

theorem hasLead_append_self : ∀ (pat w : List Char),
    hasLead pat (pat ++ w) = true
  | [], _ => rfl
  | p :: ps, w => by simp [hasLead, hasLead_append_self ps w]

theorem replaceFirstL_no_second_slash (l : List Char)
    (h : l.count '/' ≤ 1) : '/' ∉ replaceFirstL ['/'] [' '] l := by
  induction l with
  | nil => simp [replaceFirstL, hasLead]
  | cons c t ih =>
    by_cases hc : c = '/'
    · subst hc
      have hlead : hasLead ['/'] ('/' :: t) = true := by simp [hasLead]
      simp only [replaceFirstL, hlead, if_pos]
      have hcount : t.count '/' = 0 := by
        rw [List.count_cons_self] at h
        omega
      have hmem : '/' ∉ t := List.count_eq_zero.mp hcount
      simp only [List.drop_succ_cons, List.drop_zero, List.singleton_append,
        List.mem_cons]
      rintro (h1 | h1)
      · exact absurd h1.symm (by decide)
      · exact hmem h1
    · have hlead : hasLead ['/'] (c :: t) = false := by
        simp [hasLead]
        exact fun he => absurd he.symm hc
      simp only [replaceFirstL, hlead, Bool.false_eq_true, if_false,
        List.mem_cons]
      rintro (h1 | h1)
      · exact hc h1.symm
      · have hcount : t.count '/' ≤ 1 := by
          rw [List.count_cons_of_ne (by exact fun he => hc he.symm)] at h
          exact h
        exact ih hcount h1

theorem replaceFirstL_at_first (pat rep v : List Char) (hpat : pat ≠ []) :
    ∀ u : List Char,
      (∀ i, i < u.length → hasLead pat ((u ++ pat ++ v).drop i) = false) →
      replaceFirstL pat rep (u ++ pat ++ v) = u ++ rep ++ v := by
  intro u
  induction u with
  | nil =>
    intro _
    simp only [List.nil_append]
    cases pat with
    | nil => exact absurd rfl hpat
    | cons p ps =>
      show replaceFirstL (p :: ps) rep (p :: (ps ++ v)) = rep ++ v
      simp only [replaceFirstL]
      rw [if_pos (by simpa using hasLead_append_self (p :: ps) v)]
      simp only [List.length_cons, List.drop_succ_cons]
      rw [List.drop_left ps v]
  | cons c u' ih =>
    intro h
    have h0 := h 0 (by simp)
    simp only [List.cons_append, List.drop_zero] at h0
    show replaceFirstL pat rep (c :: (u' ++ pat ++ v)) = c :: (u' ++ rep ++ v)
    simp only [replaceFirstL, h0, Bool.false_eq_true, if_false]
    congr 1
    apply ih
    intro i hi
    have := h (i + 1) (by simpa using Nat.succ_lt_succ hi)
    simpa using this

/-! ## Supporting lemmas: SHA-256 digest shape -/

theorem compressStep_length (st : List Nat) (kw : Nat × Nat) :
    (compressStep st kw).length = 8 := rfl

theorem foldl_compressStep_length (l : List (Nat × Nat)) (st : List Nat)
    (h : st.length = 8) : (l.foldl compressStep st).length = 8 := by
  induction l generalizing st with
  | nil => exact h
  | cons kw l' ih => exact ih _ (compressStep_length st kw)

theorem processBlock_length (H b : List Nat) (h : H.length = 8) :
    (processBlock H b).length = 8 := by
  unfold processBlock
  rw [List.length_zipWith, foldl_compressStep_length _ _ h, h]
  rfl

theorem foldl_processBlock_length (bs : List (List Nat)) (H : List Nat)
    (h : H.length = 8) : (bs.foldl processBlock H).length = 8 := by
  induction bs generalizing H with
  | nil => exact h
  | cons b bs' ih => exact ih _ (processBlock_length H b h)

theorem length_flatten_map_const {α β : Type} (f : α → List β) (k : Nat)
    (l : List α) (h : ∀ x ∈ l, (f x).length = k) :
    ((l.map f).flatten).length = k * l.length := by
  induction l with
  | nil => simp
  | cons c t ih =>
    simp only [List.map_cons, List.flatten_cons, List.length_append,
      List.length_cons]
    rw [h c (List.mem_cons_self c t), ih (fun x hx => h x (List.mem_cons_of_mem c hx))]
    ring

theorem sha256Digest_length (msg : List Nat) : (sha256Digest msg).length = 32 := by
  unfold sha256Digest
  rw [length_flatten_map_const wordBytes 4 _ (fun x _ => rfl)]
  rw [foldl_processBlock_length _ _ (show H0.length = 8 from rfl)]

theorem sha256Digest_bytes_lt (msg : List Nat) :
    ∀ b ∈ sha256Digest msg, b < 256 := by
  intro b hb
  unfold sha256Digest at hb
  rw [List.mem_flatten] at hb
  obtain ⟨l, hl, hbl⟩ := hb
  rw [List.mem_map] at hl
  obtain ⟨w, _, hw⟩ := hl
  subst hw
  unfold wordBytes at hbl
  simp only [List.mem_cons, List.not_mem_nil, or_false] at hbl
  rcases hbl with rfl | rfl | rfl | rfl <;>
    exact Nat.mod_lt _ (by omega)

theorem hexDigit_ok (n : Nat) (h : n < 16) : hexOkChar (hexDigit n) = true := by
  interval_cases n <;> decide

theorem byteHexChars_ok (b : Nat) (hb : b < 256) :
    ∀ c ∈ byteHexChars b, hexOkChar c = true := by
  intro c hc
  unfold byteHexChars at hc
  simp only [List.mem_cons, List.not_mem_nil, or_false] at hc
  rcases hc with rfl | rfl
  · exact hexDigit_ok _ (by omega)
  · exact hexDigit_ok _ (Nat.mod_lt _ (by omega))

theorem sha256hex_length (s : String) : (sha256hex s).length = 64 := by
  show ((((sha256Digest (strBytes s))).map byteHexChars).flatten).length = 64
  rw [length_flatten_map_const byteHexChars 2 _ (fun x _ => rfl)]
  rw [sha256Digest_length]

theorem sha256hex_chars (s : String) :
    ∀ c ∈ (sha256hex s).data, hexOkChar c = true := by
  intro c hc
  have hc' : c ∈ (((sha256Digest (strBytes s))).map byteHexChars).flatten := hc
  rw [List.mem_flatten] at hc'
  obtain ⟨l, hl, hcl⟩ := hc'
  rw [List.mem_map] at hl
  obtain ⟨b, hb, hbl⟩ := hl
  subst hbl
  exact byteHexChars_ok b (sha256Digest_bytes_lt _ b hb) c hcl

/-! ## Claim theorems -/

/-- C2. For every pair of strings, `generateStableHash(canonicalPath, author)`
equals the first 12 characters (`slice(0, 12)`) of the lowercase hex
encoding of the SHA-256 digest of `canonicalPath + ":" + author`; the output
has length 12 and every character is in `[a-f0-9]`. Determinism is inherent:
the model is a pure function of its two arguments. -/
theorem stableHash_is_sliced_sha256 (p a : String) :
    generateStableHash p a = jsSlice (sha256hex (p ++ ":" ++ a)) 12
    ∧ (generateStableHash p a).length = 12
    ∧ (generateStableHash p a).data.all hexOkChar = true := by
  refine ⟨rfl, ?_, ?_⟩
  · show ((sha256hex (p ++ ":" ++ a)).data.take 12).length = 12
    rw [List.length_take]
    have := sha256hex_length (p ++ ":" ++ a)
    rw [show (sha256hex (p ++ ":" ++ a)).length =
      (sha256hex (p ++ ":" ++ a)).data.length from rfl] at this
    omega
  · rw [List.all_eq_true]
    intro c hc
    have : c ∈ (sha256hex (p ++ ":" ++ a)).data := List.mem_of_mem_take hc
    exact sha256hex_chars _ c this

/-- C8. The slug function is idempotent, and the three concrete examples of
the claim hold: `slugify` lowercases, collapses every maximal run of
non-alphanumerics to a single hyphen, and strips boundary hyphens. -/
theorem generateSlug_idempotent (x : String) :
    generateSlug (generateSlug x) = generateSlug x
    ∧ generateSlug "Beautiful European Cities" = "beautiful-european-cities"
    ∧ generateSlug "   Spaces   Everywhere   " = "spaces-everywhere"
    ∧ generateSlug "" = "" := by
  refine ⟨generateSlug_fixed_point x, by decide, by decide, by decide⟩

/-- C7 counterexample. The claim states the search text never contains a
literal `"/"` in the portion where the canonical path was embedded — that
every slash of the canonical path is replaced by a space. For the canonical
path `"a/b/c"` (all other fields slash-free), the embedded portion is
`"a b/c"`: `String.prototype.replace('/', ' ')` replaces only the first
occurrence, so a second slash survives into the output. -/
theorem searchText_slash_counterexample :
    generateSearchText ⟨"N", "D", none⟩ "a/b/c" "X" = "n d x a b/c "
    ∧ (jsReplaceFirst "a/b/c" "/" " ").data.contains '/' = true := by
  constructor
  · decide
  · decide

/-- C7 (amended). The search text always equals its own lowercasing, and
for a canonical path containing at most one slash — which covers every
canonical path the build constructs, `"<category>/<stem>"` with the stem
taken from a file name — the embedded path portion contains no slash. -/
theorem searchText_lowercase_and_first_slash (item : SearchItem)
    (path author : String) :
    jsToLower (generateSearchText item path author) =
      generateSearchText item path author
    ∧ (path.data.count '/' ≤ 1 →
        (jsReplaceFirst path "/" " ").data.contains '/' = false) := by
  constructor
  · exact jsToLower_idem _
  · intro h
    have hmem : '/' ∉ (jsReplaceFirst path "/" " ").data := by
      show '/' ∉ replaceFirstL "/".data " ".data path.data
      exact replaceFirstL_no_second_slash path.data h
    cases hcon : (jsReplaceFirst path "/" " ").data.contains '/' with
    | false => rfl
    | true => exact absurd (List.elem_iff.mp hcon) hmem

/-- C7 witness: the amended theorem applied at a build-shaped canonical
path. -/
theorem searchText_lowercase_and_first_slash_witness :
    jsToLower (generateSearchText ⟨"N", "D", none⟩ "photo_packs/nature" "A") =
      generateSearchText ⟨"N", "D", none⟩ "photo_packs/nature" "A"
    ∧ (jsReplaceFirst "photo_packs/nature" "/" " ").data.contains '/' = false :=
  ⟨(searchText_lowercase_and_first_slash ⟨"N", "D", none⟩ "photo_packs/nature"
      "A").1,
   (searchText_lowercase_and_first_slash ⟨"N", "D", none⟩ "photo_packs/nature"
      "A").2 (by decide)⟩

/-- C10. The file stem used for the canonical path is the file name with
only its first occurrence of the substring `".json"` removed: whenever
`".json"` does not occur at any position strictly inside the prefix `s₁`,
the stem of `s₁ ++ ".json" ++ s₂` is `s₁ ++ s₂`; in particular the name
`"a.json.json"` yields the stem `"a.json"`, the later occurrence
surviving. -/
theorem fileStem_removes_first_json (s₁ s₂ : String)
    (h : ∀ i, i < s₁.data.length →
      hasLead ".json".data ((s₁.data ++ ".json".data ++ s₂.data).drop i) =
        false) :
    jsReplaceFirst (s₁ ++ ".json" ++ s₂) ".json" "" = s₁ ++ s₂
    ∧ jsReplaceFirst "a.json.json" ".json" "" = "a.json" := by
  constructor
  · show String.mk (replaceFirstL ".json".data "".data
      (s₁ ++ ".json" ++ s₂).data) = s₁ ++ s₂
    have hdata : (s₁ ++ ".json" ++ s₂).data =
        s₁.data ++ ".json".data ++ s₂.data := by
      rw [String.data_append, String.data_append]
    rw [hdata]
    rw [replaceFirstL_at_first ".json".data "".data s₂.data (by decide)
      s₁.data h]
    show String.mk (s₁.data ++ [] ++ s₂.data) = s₁ ++ s₂
    rw [List.append_nil]
    show String.mk (s₁.data ++ s₂.data) = s₁ ++ s₂
    rw [← String.data_append]
  · decide

/-- C10 witness: the theorem applied at the ordinary file name
`"nature.json"` (prefix `"nature"`, empty suffix). -/
theorem fileStem_removes_first_json_witness :
    jsReplaceFirst ("nature" ++ ".json" ++ "") ".json" "" = "nature" ++ ""
    ∧ jsReplaceFirst "a.json.json" ".json" "" = "a.json" :=
  fileStem_removes_first_json "nature" "" (by decide)

/-! ## Supporting lemmas: the ID registry -/

theorem lookupHash_none_not_mem (hs : List (String × String)) (h : String)
    (hl : lookupHash hs h = none) : h ∉ hs.map Prod.fst := by
  intro hmem
  unfold lookupHash at hl
  cases hf : hs.find? (fun kv => kv.1 == h) with
  | some kv => rw [hf] at hl; simp at hl
  | none =>
    rw [List.mem_map] at hmem
    obtain ⟨kv, hkv, hfst⟩ := hmem
    have := List.find?_eq_none.mp hf kv hkv
    simp only [hfst, beq_self_eq_true, not_true_eq_false] at this

theorem find?_key_of_mem_nodup (hs : List (String × String)) (h p' : String) :
    (hs.map Prod.fst).Nodup → (h, p') ∈ hs →
    hs.find? (fun kv => kv.1 == h) = some (h, p') := by
  induction hs with
  | nil =>
    intro _ hm
    simp at hm
  | cons kv t ih =>
    intro hnd hm
    rcases List.mem_cons.mp hm with heq | hm'
    · rw [← heq]
      exact List.find?_cons_of_pos _ (by simp)
    · by_cases hk : kv.1 = h
      · exfalso
        rw [List.map_cons, List.nodup_cons] at hnd
        exact hnd.1 (hk ▸ List.mem_map.mpr ⟨(h, p'), hm', rfl⟩)
      · rw [List.find?_cons_of_neg _ (by simpa using hk)]
        exact ih (by rw [List.map_cons, List.nodup_cons] at hnd; exact hnd.2)
          hm'

theorem registerIds_ok_inv (r r' : IdRegistry) (p h : String)
    (hinv : r.paths.Nodup ∧ (r.hashes.map Prod.fst).Nodup)
    (hok : registerIds r p h = .ok r') :
    r'.paths.Nodup ∧ (r'.hashes.map Prod.fst).Nodup := by
  unfold registerIds at hok
  by_cases hc : r.paths.contains p
  · rw [if_pos hc] at hok
    simp at hok
  · rw [if_neg hc] at hok
    cases hl : lookupHash r.hashes h with
    | some q => rw [hl] at hok; simp at hok
    | none =>
      rw [hl] at hok
      simp only [Except.ok.injEq] at hok
      subst hok
      constructor
      · exact List.nodup_cons.mpr
          ⟨fun hm => hc (List.elem_iff.mpr hm), hinv.1⟩
      · rw [List.map_cons]
        exact List.nodup_cons.mpr ⟨lookupHash_none_not_mem _ _ hl, hinv.2⟩

theorem runRegistrations_inv (l : List (String × String)) :
    ∀ r r' : IdRegistry,
      r.paths.Nodup ∧ (r.hashes.map Prod.fst).Nodup →
      runRegistrations r l = .ok r' →
      r'.paths.Nodup ∧ (r'.hashes.map Prod.fst).Nodup := by
  induction l with
  | nil =>
    intro r r' hinv hrun
    simp only [runRegistrations, Except.ok.injEq] at hrun
    subst hrun
    exact hinv
  | cons ph rest ih =>
    intro r r' hinv hrun
    obtain ⟨p, h⟩ := ph
    simp only [runRegistrations] at hrun
    cases hreg : registerIds r p h with
    | error e => rw [hreg] at hrun; simp at hrun
    | ok r1 =>
      rw [hreg] at hrun
      exact ih r1 r' (registerIds_ok_inv r r1 p h hinv hreg) hrun

/-- C1. Registry uniqueness across a whole build: after any successful
sequence of registrations from the empty registry, the canonical paths are
pairwise distinct and the stable-hash keys are pairwise distinct; a further
registration of an already-present canonical path fails fatally as
`DUPLICATE PATH`; and a registration whose stable hash is already held by
some earlier path `p'` (with a fresh canonical path) fails fatally as
`HASH COLLISION`, reporting that earlier path. -/
theorem idRegistry_enforces_uniqueness (l : List (String × String))
    (r : IdRegistry) (hrun : runRegistrations ⟨[], []⟩ l = .ok r) :
    (r.paths.Nodup ∧ (r.hashes.map Prod.fst).Nodup)
    ∧ (∀ p h, r.paths.contains p = true →
        registerIds r p h = .error (.duplicatePath p))
    ∧ (∀ p h p', r.paths.contains p = false → (h, p') ∈ r.hashes →
        registerIds r p h = .error (.hashCollision p p')) := by
  have hinv := runRegistrations_inv l ⟨[], []⟩ r (by constructor <;> simp) hrun
  refine ⟨hinv, ?_, ?_⟩
  · intro p h hc
    unfold registerIds
    rw [if_pos hc]
  · intro p h p' hc hm
    unfold registerIds
    rw [if_neg (fun hct => by rw [hct] at hc; exact Bool.noConfusion hc)]
    unfold lookupHash
    rw [find?_key_of_mem_nodup r.hashes h p' hinv.2 hm]

/-- C1 witness: one successful registration, then a duplicate path and a
hash collision, each rejected with the claimed diagnostic. -/
theorem idRegistry_enforces_uniqueness_witness :
    registerIds ⟨[("h1", "photo_packs/a")], ["photo_packs/a"]⟩
      "photo_packs/a" "h2" = .error (.duplicatePath "photo_packs/a")
    ∧ registerIds ⟨[("h1", "photo_packs/a")], ["photo_packs/a"]⟩
      "photo_packs/b" "h1" =
        .error (.hashCollision "photo_packs/b" "photo_packs/a") := by
  have h := idRegistry_enforces_uniqueness [("photo_packs/a", "h1")]
    ⟨[("h1", "photo_packs/a")], ["photo_packs/a"]⟩ (by decide)
  exact ⟨h.2.1 "photo_packs/a" "h2" (by decide),
         h.2.2 "photo_packs/b" "h1" "photo_packs/a" (by decide) (by decide)⟩

/-! ## Supporting lemmas: the two validators -/

theorem requiredLoop_eq_find? (file : JSObj) (fs : List String) :
    requiredLoop file fs = fs.find? (fun f => !truthy (getField file f)) := by
  induction fs with
  | nil => rfl
  | cons f fs' ih =>
    rw [List.find?_cons]
    by_cases ht : truthy (getField file f)
    · simp [requiredLoop, ht, ih]
    · simp [requiredLoop, ht]

theorem requiredLoop_none_truthy (file : JSObj) (fs : List String)
    (h : requiredLoop file fs = none) :
    ∀ f ∈ fs, truthy (getField file f) = true := by
  intro f hf
  rw [requiredLoop_eq_find?] at h
  have := List.find?_eq_none.mp h f hf
  simpa using this

/-- C4. The `utils.ts` validator fails exactly when the claim's condition
predicts: the reported field is the first required field of the category
holding a falsy value, or else the payload field that is not a non-empty
array; the error carries the canonical path; validation succeeds iff no such
field exists; and an item whose `settings` is the empty map passes. -/
theorem validateItem_matches_spec (file : JSObj) (folder : Folder)
    (path : String) :
    vField (utilsValidateItem file folder path) = specFirstFailure file folder
    ∧ vPath (utilsValidateItem file folder path) =
        (specFirstFailure file folder).map (fun _ => path)
    ∧ (utilsValidateItem file folder path = .ok ()
        ↔ specFirstFailure file folder = none)
    ∧ utilsValidateItem
        [("name", .str "n"), ("description", .str "d"), ("author", .str "a"),
         ("settings", .obj [])] .preset_settings "preset_settings/empty" =
        .ok () := by
  have key : (specFirstFailure file folder = none
        ∧ utilsValidateItem file folder path = .ok ())
      ∨ (∃ f m, specFirstFailure file folder = some f
        ∧ utilsValidateItem file folder path = .error ⟨some f, m, path⟩) := by
    unfold utilsValidateItem specFirstFailure
    rw [requiredLoop_eq_find?]
    cases hf : (requiredFields folder).find?
        (fun f => !truthy (getField file f)) with
    | some f =>
      right
      exact ⟨f, "Missing required field \"" ++ f ++ "\"", rfl, rfl⟩
    | none =>
      cases folder with
      | photo_packs =>
        cases hp : getField file "photos" with
        | arr xs =>
          by_cases hlen : xs.length = 0
          · right
            refine ⟨"photos", "Photo pack must contain at least one photo",
              ?_, ?_⟩ <;> simp [hlen]
          · left
            constructor <;> simp [hlen]
        | undefined => right; exact ⟨"photos", _, rfl, rfl⟩
        | null => right; exact ⟨"photos", _, rfl, rfl⟩
        | bool b => right; exact ⟨"photos", _, rfl, rfl⟩
        | num n => right; exact ⟨"photos", _, rfl, rfl⟩
        | str s => right; exact ⟨"photos", _, rfl, rfl⟩
        | obj o => right; exact ⟨"photos", _, rfl, rfl⟩
      | quote_packs =>
        cases hp : getField file "quotes" with
        | arr xs =>
          by_cases hlen : xs.length = 0
          · right
            refine ⟨"quotes", "Quote pack must contain at least one quote",
              ?_, ?_⟩ <;> simp [hlen]
          · left
            constructor <;> simp [hlen]
        | undefined => right; exact ⟨"quotes", _, rfl, rfl⟩
        | null => right; exact ⟨"quotes", _, rfl, rfl⟩
        | bool b => right; exact ⟨"quotes", _, rfl, rfl⟩
        | num n => right; exact ⟨"quotes", _, rfl, rfl⟩
        | str s => right; exact ⟨"quotes", _, rfl, rfl⟩
        | obj o => right; exact ⟨"quotes", _, rfl, rfl⟩
      | preset_settings => left; exact ⟨rfl, rfl⟩
  refine ⟨?_, ?_, ?_, by decide⟩
  · rcases key with ⟨h1, h2⟩ | ⟨f, m, h1, h2⟩ <;> rw [h1, h2] <;> rfl
  · rcases key with ⟨h1, h2⟩ | ⟨f, m, h1, h2⟩ <;> rw [h1, h2] <;> rfl
  · rcases key with ⟨h1, h2⟩ | ⟨f, m, h1, h2⟩
    · simp [h1, h2]
    · simp [h1, h2]

/-- C9 counterexample. An item whose `photos` field holds the truthy
non-array `"abc"` passes the inline `bundle.ts` validator (truthiness plus
a `.length === 0` check that `"abc"` survives) but is rejected by the
`utils.ts` validator (`Array.isArray` fails): the two validators do not
accept the same inputs. -/
theorem validators_disagree_counterexample :
    bundleValidateItem
      [("name", .str "N"), ("description", .str "D"), ("author", .str "A"),
       ("icon_url", .str "I"), ("photos", .str "abc")] .photo_packs
      "photo_packs/x" = .ok ()
    ∧ utilsValidateItem
      [("name", .str "N"), ("description", .str "D"), ("author", .str "A"),
       ("icon_url", .str "I"), ("photos", .str "abc")] .photo_packs
      "photo_packs/x" =
      .error ⟨some "photos", "Photo pack must contain at least one photo",
        "photo_packs/x"⟩ := by
  constructor
  · decide
  · decide

/-- C9 (amended). Whenever the category payload (`photos`/`quotes`) is an
array or a falsy value — which covers every well-formed item file — the two
validators accept exactly the same inputs and, on failure, identify the
same field. They can differ only on a truthy non-array payload. -/
theorem validators_agree_on_array_payloads (file : JSObj) (folder : Folder)
    (path : String) (h : payloadCompat file folder = true) :
    (utilsValidateItem file folder path = .ok ()
      ↔ bundleValidateItem file folder path = .ok ())
    ∧ vField (utilsValidateItem file folder path) =
        bvField (bundleValidateItem file folder path) := by
  unfold utilsValidateItem bundleValidateItem
  cases hr : requiredLoop file (requiredFields folder) with
  | some f => constructor <;> simp [vField, bvField]
  | none =>
    cases folder with
    | preset_settings => constructor <;> simp [vField, bvField]
    | photo_packs =>
      have htr : truthy (getField file "photos") = true :=
        requiredLoop_none_truthy file _ hr "photos" (by simp [requiredFields])
      have harr : jsIsArray (getField file "photos") = true := by
        unfold payloadCompat at h
        rw [htr] at h
        simpa using h
      cases hp : getField file "photos" with
      | arr xs =>
        rw [hp] at htr
        by_cases hlen : xs.length = 0
        · constructor <;> simp [vField, bvField, hlen, jsLengthProp,
            strictEqZero, truthy]
        · constructor <;> simp [vField, bvField, hlen, jsLengthProp,
            strictEqZero, truthy]
      | undefined => rw [hp] at harr; simp [jsIsArray] at harr
      | null => rw [hp] at harr; simp [jsIsArray] at harr
      | bool b => rw [hp] at harr; simp [jsIsArray] at harr
      | num n => rw [hp] at harr; simp [jsIsArray] at harr
      | str s => rw [hp] at harr; simp [jsIsArray] at harr
      | obj o => rw [hp] at harr; simp [jsIsArray] at harr
    | quote_packs =>
      have htr : truthy (getField file "quotes") = true :=
        requiredLoop_none_truthy file _ hr "quotes" (by simp [requiredFields])
      have harr : jsIsArray (getField file "quotes") = true := by
        unfold payloadCompat at h
        rw [htr] at h
        simpa using h
      cases hp : getField file "quotes" with
      | arr xs =>
        rw [hp] at htr
        by_cases hlen : xs.length = 0
        · constructor <;> simp [vField, bvField, hlen, jsLengthProp,
            strictEqZero, truthy]
        · constructor <;> simp [vField, bvField, hlen, jsLengthProp,
            strictEqZero, truthy]
      | undefined => rw [hp] at harr; simp [jsIsArray] at harr
      | null => rw [hp] at harr; simp [jsIsArray] at harr
      | bool b => rw [hp] at harr; simp [jsIsArray] at harr
      | num n => rw [hp] at harr; simp [jsIsArray] at harr
      | str s => rw [hp] at harr; simp [jsIsArray] at harr
      | obj o => rw [hp] at harr; simp [jsIsArray] at harr

/-- C9 witness: the amended theorem applied to a well-formed photo pack. -/
theorem validators_agree_on_array_payloads_witness :
    (utilsValidateItem
        [("name", .str "N"), ("description", .str "D"), ("author", .str "A"),
         ("icon_url", .str "I"), ("photos", .arr [.str "u"])] .photo_packs
        "photo_packs/ok" = .ok ()
      ↔ bundleValidateItem
        [("name", .str "N"), ("description", .str "D"), ("author", .str "A"),
         ("icon_url", .str "I"), ("photos", .arr [.str "u"])] .photo_packs
        "photo_packs/ok" = .ok ())
    ∧ vField (utilsValidateItem
        [("name", .str "N"), ("description", .str "D"), ("author", .str "A"),
         ("icon_url", .str "I"), ("photos", .arr [.str "u"])] .photo_packs
        "photo_packs/ok") =
      bvField (bundleValidateItem
        [("name", .str "N"), ("description", .str "D"), ("author", .str "A"),
         ("icon_url", .str "I"), ("photos", .arr [.str "u"])] .photo_packs
        "photo_packs/ok") :=
  validators_agree_on_array_payloads _ .photo_packs "photo_packs/ok"
    (by decide)

/-- C3 counterexample. The claimed gating — "return a stored entry only if
the stored fingerprint equals the current one AND the entry's age is below
the 7-day maximum, in both cache namespaces" — is absent from the code. A
colour-cache entry stores neither a fingerprint nor a write timestamp and is
returned on mere presence of the icon URL; a git-history entry is returned
on fingerprint match alone, with no age ever stored or consulted (here an
entry whose own timestamps are decades old still hits). -/
theorem cache_lookup_unconditional_counterexample :
    colorCacheGet [("https://example.com/icon.png", ⟨"#aabbcc", true, false⟩)]
      "https://example.com/icon.png" = some ⟨"#aabbcc", true, false⟩
    ∧ gitHistoryCacheLookup
        [("./data/photo_packs/a.json",
          ⟨"2000-01-01T00:00:00.000Z", "2000-01-02T00:00:00.000Z", "h16"⟩)]
        "./data/photo_packs/a.json" "h16" =
        some ⟨"2000-01-01T00:00:00.000Z", "2000-01-02T00:00:00.000Z"⟩ := by
  constructor
  · rfl
  · rfl

/-- C3 (amended). What the two cache namespaces actually check: a
git-history lookup hits exactly when an entry is stored under the path and
its stored `contentHash` equals the current file hash — with no age bound;
a colour-cache lookup returns whatever entry is stored under the URL,
checking nothing at all. -/
theorem cache_lookup_amended (g : List (String × GitCacheEntry))
    (p fh : String) (c : List (String × ColorCacheEntry)) (u : String) :
    ((gitHistoryCacheLookup g p fh).isSome = true ↔
      ∃ e, assocLookup g p = some e ∧ e.contentHash = fh)
    ∧ colorCacheGet c u = assocLookup c u := by
  constructor
  · unfold gitHistoryCacheLookup
    cases hl : assocLookup g p with
    | none => simp
    | some e =>
      by_cases heq : e.contentHash = fh
      · simp [heq]
      · simp only [heq]
        constructor
        · intro hs
          rw [if_neg (by simpa using heq)] at hs
          simp at hs
        · rintro ⟨e', he', hfp⟩
          injection he' with he'
          subst he'
          exact absurd hfp heq
  · unfold colorCacheGet
    cases assocLookup c u <;> rfl

/-- C5. A file whose parsed contents carry `draft: true` is filtered out
before validation and leaves no trace: processing it returns the registry
unchanged and produces no summary (so it reaches no manifest, index, or
enriched copy); removing it from a category's file list does not change the
build at all; and the same holds for a draft collection file. -/
theorem draft_items_invisible (ghm : List (String × Timestamps)) (now : String)
    (reg : IdRegistry) (folder : Folder) (fileName : String) (file : JSObj)
    (xs ys : List (String × JSObj)) (log : List GitCommit)
    (itemKeys : List String) (cfile : JSObj)
    (hdraft : strictEqTrue (getField file "draft") = true)
    (hcdraft : strictEqTrue (getField cfile "draft") = true) :
    processItem ghm now reg folder fileName file = .ok (reg, none)
    ∧ processItems ghm now reg folder (xs ++ (fileName, file) :: ys) =
        processItems ghm now reg folder (xs ++ ys)
    ∧ processCollection reg log itemKeys fileName cfile = .ok (reg, none) := by
  have hpi : ∀ r : IdRegistry,
      processItem ghm now r folder fileName file = .ok (r, none) := by
    intro r
    unfold processItem
    rw [if_pos hdraft]
  refine ⟨hpi reg, ?_, ?_⟩
  · induction xs generalizing reg with
    | nil =>
      show processItems ghm now reg folder ((fileName, file) :: ys) =
        processItems ghm now reg folder ys
      simp only [processItems, hpi reg]
    | cons hd tl ih =>
      obtain ⟨fn, f⟩ := hd
      simp only [List.cons_append, processItems, List.append_eq, ih]
  · unfold processCollection
    rw [if_pos hcdraft]

/-- C5 witness: a concrete draft item and draft collection vanish from the
build. -/
theorem draft_items_invisible_witness :
    processItem [] "T" ⟨[], []⟩ .photo_packs "d.json"
      [("draft", .bool true)] = .ok (⟨[], []⟩, none)
    ∧ processItems [] "T" ⟨[], []⟩ .photo_packs
        ([] ++ ("d.json", [("draft", .bool true)]) :: []) =
        processItems [] "T" ⟨[], []⟩ .photo_packs ([] ++ [])
    ∧ processCollection ⟨[], []⟩ [] [] "d.json"
        [("draft", .bool true)] = .ok (⟨[], []⟩, none) :=
  draft_items_invisible [] "T" ⟨[], []⟩ .photo_packs "d.json"
    [("draft", .bool true)] [] [] [] [] [("draft", .bool true)]
    (by decide) (by decide)

/-- C6 counterexample. The claim says every file with no resolvable
version-control history falls back to "now" for both timestamps and that a
history gap is never fatal. For a collection file the code dereferences
`collectionHistory.latest!` with no null check: on an empty history it
produces no timestamps at all (the thrown `TypeError` aborts the build),
not a fallback. -/
theorem collection_history_gap_fatal :
    resolveCollectionTimestamps [] = none := rfl

/-- C6 (amended). For item files the claim holds: when the batch git-history
map has no entry for the path, both `created_at` and `updated_at` fall back
to the current time and processing continues (the resolver is total). Only
collection files lack the fallback. -/
theorem item_history_gap_falls_back (ghm : List (String × Timestamps))
    (path now : String) (h : assocLookup ghm path = none) :
    resolveItemTimestamps ghm path now = ⟨now, now⟩ := by
  unfold resolveItemTimestamps
  rw [h]

/-- C6 witness: the amended theorem applied to an empty history map. -/
theorem item_history_gap_falls_back_witness :
    resolveItemTimestamps [] "./data/photo_packs/new.json"
      "2026-10-12T00:00:00.000Z" =
      ⟨"2026-10-12T00:00:00.000Z", "2026-10-12T00:00:00.000Z"⟩ :=
  item_history_gap_falls_back [] "./data/photo_packs/new.json"
    "2026-10-12T00:00:00.000Z" rfl

end Marketplace
